import Mathlib

/-!
Verification of the sheet-sync script: a shallow embedding of its URL
normalizer, row classifier, per-line CSV field parser, and the main
pipeline over an abstract sheet-name list and fetch function.

Strings are modelled as lists of characters.  The Python method
`str.strip` is modelled over the ASCII whitespace characters it removes.
-/

/-- Whitespace characters removed by the Python method `str.strip`
(restricted to ASCII). -/
def isPySpace (c : Char) : Bool :=
  c = ' ' || c = '\t' || c = '\n' || c = '\r' || c = '\x0B' || c = '\x0C'

/-- Remove trailing whitespace characters. -/
def trimR : List Char → List Char
  | [] => []
  | c :: cs =>
    match trimR cs with
    | [] => if isPySpace c then [] else [c]
    | r => c :: r

/-- The Python expression `s.strip()`: remove leading and trailing
whitespace. -/
def pyStrip (s : List Char) : List Char :=
  trimR (s.dropWhile isPySpace)

/-- The Python expression `s.startswith(p)`. -/
def startsWithL : List Char → List Char → Bool
  | [], _ => true
  | _ :: _, [] => false
  | p :: ps, c :: cs => if p = c then startsWithL ps cs else false

def httpL : List Char := "http://".toList

def httpsL : List Char := "https://".toList

def wwwL : List Char := "www.".toList

/-- The quote-stripping step of `clean_url`: if the string both starts
and ends with a double-quote character, drop the first and last
character (the Python slice `url[1:-1]`). -/
def stripQ (u : List Char) : List Char :=
  if u.head? = some '"' ∧ u.getLast? = some '"' then (u.drop 1).dropLast else u

/-- Embedding of `clean_url` from `sync_sheets.py`: returns `none` on a
blank or whitespace-only input; otherwise trims, strips one layer of
surrounding double quotes, and ensures an `http://` or `https://`
scheme, prefixing `https://` when absent. -/
def clean_url (url : List Char) : Option (List Char) :=
  if url = [] ∨ pyStrip url = [] then none
  else if startsWithL httpL (stripQ (pyStrip url)) || startsWithL httpsL (stripQ (pyStrip url)) then
    some (stripQ (pyStrip url))
  else if startsWithL wwwL (stripQ (pyStrip url)) then
    some (httpsL ++ stripQ (pyStrip url))
  else
    some (httpsL ++ stripQ (pyStrip url))

/-- One resource entry: `{"name": ...}` with an optional `"url"` key. -/
structure Entry where
  name : List Char
  url : Option (List Char)
deriving DecidableEq

/-- The processed representation of one sheet.  A `none` field models a
key absent from the Python result dict. -/
structure PySection where
  sub_headings : Option (List (List Char × List Entry))
  direct_links : Option (List Entry)
deriving DecidableEq

/-- Python truthiness of the result dict: empty iff both keys absent. -/
def PySection.isEmptyB (s : PySection) : Bool :=
  s.sub_headings.isNone && s.direct_links.isNone

/-- Loop state of `process_sheet_data`: the `sub_headings` insertion-order
dict and the `direct_links` list. -/
structure ClsState where
  subs : List (List Char × List Entry)
  directs : List Entry
deriving DecidableEq

/-- Append an entry to the list stored under key `k`, creating the key at
the end on first use — Python dict insertion-order semantics for
`sub_headings[sub_heading].append(entry)`. -/
def appendAt : List (List Char × List Entry) → List Char → Entry → List (List Char × List Entry)
  | [], k, e => [(k, [e])]
  | (k', es) :: rest, k, e =>
    if k' = k then (k', es ++ [e]) :: rest else (k', es) :: appendAt rest k e

/-- Python truthiness guard `if url:` on an optional string. -/
def entryUrl (u : Option (List Char)) : Option (List Char) :=
  match u with
  | none => none
  | some v => if v = [] then none else some v

/-- The entry built from one row: name from column 0, url from column 1
when that column is present and non-blank (`if len(row) > 1 and
row[1].strip()` in the source), guarded by Python truthiness. -/
def rowEntry (row : List (List Char)) : Entry :=
  ⟨pyStrip (row.getD 0 []),
   entryUrl (if 1 < row.length ∧ pyStrip (row.getD 1 []) ≠ [] then clean_url (row.getD 1 []) else none)⟩

/-- Body of the row loop in `process_sheet_data`: skip a row whose
column 0 is missing or blank; otherwise build the entry from columns 0
and 1 and file it under the column-2 sub-heading or into direct links. -/
def stepRow (st : ClsState) (row : List (List Char)) : ClsState :=
  if row = [] ∨ pyStrip (row.getD 0 []) = [] then st
  else if 2 < row.length ∧ pyStrip (row.getD 2 []) ≠ [] then
    { st with subs := appendAt st.subs (pyStrip (row.getD 2 [])) (rowEntry row) }
  else
    { st with directs := st.directs ++ [rowEntry row] }

/-- Final dict construction of `process_sheet_data`: each key is present
only when its collection is non-empty. -/
def finishSection (st : ClsState) : PySection :=
  ⟨if st.subs = [] then none else some st.subs,
   if st.directs = [] then none else some st.directs⟩

/-- Embedding of `process_sheet_data` from `sync_sheets.py`: with fewer
than two rows return the empty dict; otherwise discard the header row
and classify the remaining rows in order. -/
def process_sheet_data (sheet_name : List Char) (data : List (List (List Char))) : PySection :=
  if data.length < 2 then ⟨none, none⟩
  else finishSection ((data.drop 1).foldl stepRow ⟨[], []⟩)

/-- The character-by-character CSV line loop of `fetch_sheet_data`:
`inq` is the `in_quote` flag, `cur` the current field, `row` the fields
finished so far.  Each finished field is stripped. -/
def csvAux : List Char → Bool → List Char → List (List Char) → List (List Char)
  | [], _, cur, row => row ++ [pyStrip cur]
  | '"' :: '"' :: rest, true, cur, row => csvAux rest true (cur ++ ['"']) row
  | '"' :: rest, true, cur, row => csvAux rest false cur row
  | '"' :: rest, false, cur, row => csvAux rest true cur row
  | ',' :: rest, false, cur, row => csvAux rest false [] (row ++ [pyStrip cur])
  | c :: rest, inq, cur, row => csvAux rest inq (cur ++ [c]) row

/-- Parse one CSV line into its fields, as `fetch_sheet_data` does. -/
def parseCSVLine (line : List Char) : List (List Char) :=
  csvAux line false [] []

/-- The output document: a timestamp plus the insertion-ordered
`headings` mapping. -/
structure Document where
  last_updated : List Char
  headings : List (List Char × PySection)
deriving DecidableEq

/-- Python dict assignment `output["headings"][sheet_name] = v`: replace
in place when the key exists, append otherwise. -/
def dictInsert : List (List Char × PySection) → List Char → PySection → List (List Char × PySection)
  | [], k, v => [(k, v)]
  | (k', v') :: rest, k, v =>
    if k' = k then (k', v) :: rest else (k', v') :: dictInsert rest k v

/-- The per-sheet loop of `main`: skip blank names, skip sheets whose
fetch returned no rows, skip sheets whose processed section is empty,
otherwise record the section and count the sheet as successful. -/
def mainLoop (fetch : List Char → List (List (List Char))) :
    List (List Char) → List (List Char × PySection) → Nat → List (List Char × PySection) × Nat
  | [], acc, cnt => (acc, cnt)
  | n :: rest, acc, cnt =>
    if pyStrip n = [] then mainLoop fetch rest acc cnt
    else if fetch n = [] then mainLoop fetch rest acc cnt
    else if (process_sheet_data n (fetch n)).isEmptyB = true then mainLoop fetch rest acc cnt
    else mainLoop fetch rest (dictInsert acc n (process_sheet_data n (fetch n))) (cnt + 1)

/-- Embedding of `main` over an abstract discovery result `names`, fetch
function `fetch`, and timestamp `ts`.  `none` models exiting with a
non-zero status before any output file is written; `some d` models
writing the single output file with content `d` after the loop. -/
def mainRun (names : List (List Char)) (fetch : List Char → List (List (List Char)))
    (ts : List Char) : Option Document :=
  if names = [] then none
  else if (mainLoop fetch names [] 0).2 = 0 then none
  else some ⟨ts, (mainLoop fetch names [] 0).1⟩

/-- A sheet that contributes nothing in `main`: blank name, empty fetch
result, or empty processed section. -/
def badSheet (fetch : List Char → List (List (List Char))) (n : List Char) : Prop :=
  pyStrip n = [] ∨ fetch n = [] ∨ (process_sheet_data n (fetch n)).isEmptyB = true

instance (fetch : List Char → List (List (List Char))) (n : List Char) :
    Decidable (badSheet fetch n) := by
  unfold badSheet; infer_instance

/-- Number of successful sheets, defined independently of the loop. -/
def goodCount (fetch : List Char → List (List (List Char))) : List (List Char) → Nat
  | [] => 0
  | n :: rest => (if badSheet fetch n then 0 else 1) + goodCount fetch rest

theorem pyStrip_nil : pyStrip [] = [] := rfl

theorem trimR_nil_or_head (l : List Char) :
    trimR l = [] ∨ (trimR l).head? = l.head? := by
  cases l with
  | nil => exact Or.inl rfl
  | cons c cs =>
    rcases h : trimR cs with _ | ⟨a, r⟩
    · by_cases hc : isPySpace c = true
      · left; simp [trimR, h, hc]
      · right; simp [trimR, h, hc]
    · right; simp [trimR, h]

theorem trimR_idem (l : List Char) : trimR (trimR l) = trimR l := by
  induction l with
  | nil => rfl
  | cons c cs ih =>
    rcases h : trimR cs with _ | ⟨a, r⟩
    · by_cases hc : isPySpace c = true
      · simp [trimR, h, hc]
      · simp [trimR, h, hc]
    · rw [h] at ih
      have h2 : trimR (c :: cs) = c :: a :: r := by
        rw [trimR, h]
      rw [h2, trimR, ih]

theorem dropWhile_head_not {l : List Char} {c : Char}
    (h : (l.dropWhile isPySpace).head? = some c) : isPySpace c = false := by
  induction l with
  | nil => simp at h
  | cons a l ih =>
    by_cases ha : isPySpace a = true
    · rw [List.dropWhile_cons_of_pos ha] at h
      exact ih h
    · rw [List.dropWhile_cons_of_neg ha] at h
      simp only [List.head?_cons, Option.some.injEq] at h
      subst h
      exact Bool.eq_false_iff.mpr ha

theorem dropWhile_self_of_head {l : List Char}
    (h : ∀ c, l.head? = some c → isPySpace c = false) :
    l.dropWhile isPySpace = l := by
  cases l with
  | nil => rfl
  | cons a l => exact List.dropWhile_cons_of_neg (by simp [h a rfl])

theorem pyStrip_idem (s : List Char) : pyStrip (pyStrip s) = pyStrip s := by
  unfold pyStrip
  rcases trimR_nil_or_head (s.dropWhile isPySpace) with h | h
  · rw [h]; rfl
  · have hd : (trimR (s.dropWhile isPySpace)).dropWhile isPySpace
        = trimR (s.dropWhile isPySpace) := by
      apply dropWhile_self_of_head
      intro c hc
      rw [h] at hc
      exact dropWhile_head_not hc
    rw [hd, trimR_idem]

theorem startsWithL_head {c : Char} {p s : List Char}
    (h : startsWithL (c :: p) s = true) : s.head? = some c := by
  cases s with
  | nil => simp [startsWithL] at h
  | cons a s' =>
    simp only [startsWithL] at h
    split at h
    · simp_all
    · exact absurd h (by simp)

theorem startsWithL_append (p r : List Char) : startsWithL p (p ++ r) = true := by
  induction p with
  | nil => rfl
  | cons c p ih => simp [startsWithL, ih]

theorem startsWithL_ne_head {c a : Char} {p s : List Char} (h : c ≠ a) :
    startsWithL (c :: p) (a :: s) = false := by
  simp [startsWithL, h]

theorem ne_nil_of_pyStrip {x : List Char} (h : pyStrip x ≠ []) : x ≠ [] := by
  intro hx
  subst hx
  exact h rfl

theorem clean_url_of_ne {x : List Char} (h : pyStrip x ≠ []) :
    clean_url x =
      (if startsWithL httpL (stripQ (pyStrip x)) || startsWithL httpsL (stripQ (pyStrip x)) then
        some (stripQ (pyStrip x))
      else if startsWithL wwwL (stripQ (pyStrip x)) then some (httpsL ++ stripQ (pyStrip x))
      else some (httpsL ++ stripQ (pyStrip x))) := by
  unfold clean_url
  rw [if_neg (by push_neg; exact ⟨ne_nil_of_pyStrip h, h⟩)]

theorem clean_url_starts {x y : List Char} (h : clean_url x = some y) :
    startsWithL httpL y = true ∨ startsWithL httpsL y = true := by
  unfold clean_url at h
  split at h
  · exact absurd h (by simp)
  · split at h
    · rcases Bool.or_eq_true_iff.mp (by assumption) with hc | hc
      · exact Or.inl (Option.some.inj h ▸ hc)
      · exact Or.inr (Option.some.inj h ▸ hc)
    · split at h
      · exact Or.inr (Option.some.inj h ▸ startsWithL_append httpsL _)
      · exact Or.inr (Option.some.inj h ▸ startsWithL_append httpsL _)

theorem clean_url_head {x y : List Char} (h : clean_url x = some y) :
    y.head? = some 'h' := by
  rcases clean_url_starts h with hs | hs
  · exact startsWithL_head (p := "ttp://".toList) hs
  · exact startsWithL_head (p := "ttps://".toList) hs

theorem www_not_http {y : List Char} (h : startsWithL wwwL y = true) :
    startsWithL httpL y = false ∧ startsWithL httpsL y = false := by
  cases y with
  | nil => exact absurd h (by decide)
  | cons a s =>
    have ha : a = 'w' := by
      have := startsWithL_head (p := "ww.".toList) h
      simpa using this
    subst ha
    exact ⟨startsWithL_ne_head (by decide), startsWithL_ne_head (by decide)⟩

/-- Claim C4: `clean_url` satisfies the four case rules of the spec, the
cases examined on the trimmed, quote-stripped form of the input: a blank
or whitespace-only input yields `none`; a form already starting with
`http://` or `https://` is returned unchanged; a form starting with
`www.` is prefixed with `https://`; any other non-blank form is prefixed
with `https://` unconditionally.  The four concrete cases of the spec
are included. -/
theorem claim_C4 (x : List Char) :
    (pyStrip x = [] → clean_url x = none) ∧
    (pyStrip x ≠ [] →
      (startsWithL httpL (stripQ (pyStrip x)) || startsWithL httpsL (stripQ (pyStrip x))) = true →
      clean_url x = some (stripQ (pyStrip x))) ∧
    (pyStrip x ≠ [] → startsWithL wwwL (stripQ (pyStrip x)) = true →
      clean_url x = some (httpsL ++ stripQ (pyStrip x))) ∧
    (pyStrip x ≠ [] →
      startsWithL httpL (stripQ (pyStrip x)) = false →
      startsWithL httpsL (stripQ (pyStrip x)) = false →
      startsWithL wwwL (stripQ (pyStrip x)) = false →
      clean_url x = some (httpsL ++ stripQ (pyStrip x))) ∧
    clean_url "example.org".toList = some "https://example.org".toList ∧
    clean_url "www.x.com".toList = some "https://www.x.com".toList ∧
    clean_url "https://y.com".toList = some "https://y.com".toList ∧
    clean_url [] = none := by
  refine ⟨?_, ?_, ?_, ?_, by decide, by decide, by decide, by decide⟩
  · intro h
    unfold clean_url
    rw [if_pos (Or.inr h)]
  · intro hne hst
    rw [clean_url_of_ne hne, if_pos hst]
  · intro hne hw
    have hf := www_not_http hw
    rw [clean_url_of_ne hne, hf.1, hf.2]
    simp [hw]
  · intro hne h1 h2 h3
    rw [clean_url_of_ne hne, h1, h2, h3]
    simp

/-- Claim C4 witness: the whitespace-only input yields `none` by the
first case rule, and a non-blank input with no scheme and no `www.`
is prefixed with `https://` by the fourth case rule. -/
theorem claim_C4_witness :
    clean_url "   ".toList = none ∧
    clean_url " spam.eggs ".toList = some (httpsL ++ stripQ (pyStrip " spam.eggs ".toList)) :=
  ⟨(claim_C4 "   ".toList).1 (by decide),
   (claim_C4 " spam.eggs ".toList).2.2.2.1 (by decide) (by decide) (by decide) (by decide)⟩

/-- Claim C7 counterexample: the claim fails as universally stated.  For
the input consisting of `http://a` surrounded by spaces and then by
double quotes, `clean_url` is defined but returns a string with a
trailing space, and a second application removes that space. -/
theorem claim_C7_counterexample :
    clean_url "\" http://a \"".toList = some "https:// http://a ".toList ∧
    clean_url "https:// http://a ".toList ≠ some "https:// http://a ".toList := by
  exact ⟨by decide, by decide⟩

/-- Claim C7, amended: URL normalization is idempotent whenever it is
defined and its result carries no surrounding whitespace (equivalently,
the result is fixed by trimming); the unamended claim fails because
quote stripping can expose whitespace that survives into the result. -/
theorem claim_C7 (x y : List Char) (h1 : clean_url x = some y)
    (h2 : pyStrip y = y) : clean_url y = some y := by
  have hh : y.head? = some 'h' := clean_url_head h1
  have hne : y ≠ [] := by
    intro h
    rw [h] at hh
    exact absurd hh (by decide)
  have hq : stripQ y = y := by
    unfold stripQ
    rw [if_neg]
    intro hc
    rw [hh] at hc
    exact absurd hc.1 (by decide)
  have hst : (startsWithL httpL (stripQ (pyStrip y)) || startsWithL httpsL (stripQ (pyStrip y))) = true := by
    rw [h2, hq]
    rcases clean_url_starts h1 with hs | hs
    · simp [hs]
    · simp [hs]
  have hne2 : pyStrip y ≠ [] := by rw [h2]; exact hne
  rw [clean_url_of_ne hne2, if_pos hst, h2, hq]

/-- Claim C7 witness: an already-prefixed, trimmed input is a fixed
point of `clean_url`. -/
theorem claim_C7_witness : clean_url "http://a".toList = some "http://a".toList :=
  claim_C7 "http://a".toList "http://a".toList (by decide) (by decide)

/-- Claim C9: a non-blank input whose trimmed form is surrounded by
double quotes and becomes empty after stripping them is not rejected:
`clean_url` returns the bare prefix `https://`. -/
theorem claim_C9 (x : List Char) (h1 : pyStrip x ≠ [])
    (h2 : (pyStrip x).head? = some '"') (h3 : (pyStrip x).getLast? = some '"')
    (h4 : stripQ (pyStrip x) = []) : clean_url x = some httpsL := by
  rw [clean_url_of_ne h1, h4]
  decide

/-- Claim C9 witness: the two-character input consisting of a pair of
double quotes maps to `https://`. -/
theorem claim_C9_witness : clean_url "\"\"".toList = some httpsL :=
  claim_C9 "\"\"".toList (by decide) (by decide) (by decide) (by decide)

/-- Claim C1 counterexample: on exactly the three listed rows the first
row is discarded as the header, so the entry named `A` never appears and
the result differs from the claimed Section. -/
theorem claim_C1_counterexample :
    process_sheet_data []
        [["A".toList, [], "G1".toList], ["B".toList, [], "G1".toList], ["C".toList, [], []]] ≠
      ⟨some [("G1".toList, [⟨"A".toList, none⟩, ⟨"B".toList, none⟩])],
       some [⟨"C".toList, none⟩]⟩ := by
  decide

/-- Claim C1, amended: with a header row prepended in position 0 (it is
discarded unconditionally), the rows `("A","","G1")`, `("B","","G1")`,
`("C","","")` classify to exactly the claimed Section: `A` and `B`
grouped under `G1` in row order and `C` in direct links.  On the
unamended three-row input the row `("A","","G1")` itself is treated as
the header and discarded. -/
theorem claim_C1 :
    process_sheet_data []
        [["Name".toList, "URL".toList, "Category".toList],
         ["A".toList, [], "G1".toList], ["B".toList, [], "G1".toList], ["C".toList, [], []]] =
      ⟨some [("G1".toList, [⟨"A".toList, none⟩, ⟨"B".toList, none⟩])],
       some [⟨"C".toList, none⟩]⟩ := by
  decide

/-- Claim C6: with fewer than two rows (header plus at least one data
row are required), `process_sheet_data` returns the empty Section with
both keys absent; the embedding is a total function, so no exception is
possible. -/
theorem claim_C6 (nm : List Char) (data : List (List (List Char)))
    (h : data.length < 2) : process_sheet_data nm data = ⟨none, none⟩ := by
  unfold process_sheet_data
  rw [if_pos h]

/-- Claim C6 witness: the one-row input yields the empty Section. -/
theorem claim_C6_witness :
    ([[" ".toList]] : List (List (List Char))).length < 2 ∧
      process_sheet_data [] [[" ".toList]] = ⟨none, none⟩ :=
  ⟨by decide, claim_C6 [] [[" ".toList]] (by decide)⟩

/-- Sub-heading dict invariant: all keys non-empty and all entry names
non-empty. -/
def GoodSubs (subs : List (List Char × List Entry)) : Prop :=
  ∀ p ∈ subs, p.1 ≠ [] ∧ ∀ e ∈ p.2, e.name ≠ []

/-- Direct-links invariant: all entry names non-empty. -/
def GoodDirects (l : List Entry) : Prop :=
  ∀ e ∈ l, e.name ≠ []

theorem appendAt_good {k : List Char} {e : Entry} :
    ∀ {subs : List (List Char × List Entry)}, GoodSubs subs → k ≠ [] → e.name ≠ [] →
      GoodSubs (appendAt subs k e) := by
  intro subs
  induction subs with
  | nil =>
    intro _ hk he p hp
    simp only [appendAt, List.mem_singleton] at hp
    subst hp
    refine ⟨hk, ?_⟩
    intro x hx
    simp only [List.mem_singleton] at hx
    subst hx
    exact he
  | cons q rest ih =>
    intro hs hk he
    obtain ⟨k', es⟩ := q
    simp only [appendAt]
    split
    · intro p hp
      rcases List.mem_cons.mp hp with hp | hp
      · subst hp
        refine ⟨(hs (k', es) (List.mem_cons_self _ _)).1, ?_⟩
        intro x hx
        rcases List.mem_append.mp hx with hx | hx
        · exact (hs (k', es) (List.mem_cons_self _ _)).2 x hx
        · simp only [List.mem_singleton] at hx
          subst hx
          exact he
      · exact hs p (List.mem_cons_of_mem _ hp)
    · intro p hp
      rcases List.mem_cons.mp hp with hp | hp
      · subst hp
        exact hs (k', es) (List.mem_cons_self _ _)
      · exact ih (fun q hq => hs q (List.mem_cons_of_mem _ hq)) hk he p hp

theorem stepRow_skip (st : ClsState) (row : List (List Char))
    (h : row = [] ∨ pyStrip (row.getD 0 []) = []) : stepRow st row = st := by
  unfold stepRow
  rw [if_pos h]

theorem rowEntry_name (row : List (List Char)) :
    (rowEntry row).name = pyStrip (row.getD 0 []) := rfl

theorem stepRow_good (st : ClsState) (row : List (List Char))
    (h1 : GoodSubs st.subs) (h2 : GoodDirects st.directs) :
    GoodSubs (stepRow st row).subs ∧ GoodDirects (stepRow st row).directs := by
  by_cases h : row = [] ∨ pyStrip (row.getD 0 []) = []
  · rw [stepRow_skip st row h]
    exact ⟨h1, h2⟩
  · push_neg at h
    unfold stepRow
    rw [if_neg (not_or.mpr ⟨h.1, h.2⟩)]
    split
    next hsub =>
      refine ⟨?_, h2⟩
      exact appendAt_good h1 hsub.2 (by rw [rowEntry_name]; exact h.2)
    next =>
      refine ⟨h1, ?_⟩
      intro e he
      rcases List.mem_append.mp he with hh | hh
      · exact h2 e hh
      · simp only [List.mem_singleton] at hh
        subst hh
        rw [rowEntry_name]
        exact h.2

theorem foldl_stepRow_good :
    ∀ (rows : List (List (List Char))) (st : ClsState),
      GoodSubs st.subs → GoodDirects st.directs →
      GoodSubs (rows.foldl stepRow st).subs ∧ GoodDirects (rows.foldl stepRow st).directs := by
  intro rows
  induction rows with
  | nil => intro st h1 h2; exact ⟨h1, h2⟩
  | cons row rows ih =>
    intro st h1 h2
    have hstep := stepRow_good st row h1 h2
    exact ih (stepRow st row) hstep.1 hstep.2

/-- Claim C5: every Entry produced by the classifier has a non-empty
name, every key of a produced sub-heading mapping is non-empty, and a
row whose column 0 is absent, empty or whitespace-only leaves the
classifier state unchanged, contributing no Entry. -/
theorem claim_C5 (nm : List Char) (data : List (List (List Char))) :
    (∀ m, (process_sheet_data nm data).sub_headings = some m →
      ∀ k es, (k, es) ∈ m → k ≠ [] ∧ ∀ e ∈ es, e.name ≠ []) ∧
    (∀ l, (process_sheet_data nm data).direct_links = some l → ∀ e ∈ l, e.name ≠ []) ∧
    (∀ (st : ClsState) (row : List (List Char)),
      row = [] ∨ pyStrip (row.getD 0 []) = [] → stepRow st row = st) := by
  refine ⟨?_, ?_, fun st row h => stepRow_skip st row h⟩
  · intro m hm k es hkes
    unfold process_sheet_data at hm
    split at hm
    · exact absurd hm (by simp)
    · have hg := foldl_stepRow_good (data.drop 1) ⟨[], []⟩
        (by intro p hp; simp at hp) (by intro e he; simp at he)
      unfold finishSection at hm
      simp only at hm
      split at hm
      · exact absurd hm (by simp)
      · have hmm := Option.some.inj hm
        subst hmm
        exact hg.1 (k, es) hkes
  · intro l hl e he
    unfold process_sheet_data at hl
    split at hl
    · exact absurd hl (by simp)
    · have hg := foldl_stepRow_good (data.drop 1) ⟨[], []⟩
        (by intro p hp; simp at hp) (by intro e he; simp at he)
      unfold finishSection at hl
      simp only at hl
      split at hl
      · exact absurd hl (by simp)
      · have hll := Option.some.inj hl
        subst hll
        exact hg.2 e he

/-- Claim C5 witness: a concrete produced key is non-empty and a
blank-named row leaves the state unchanged. -/
theorem claim_C5_witness :
    ("G".toList ≠ ([] : List Char)) ∧ stepRow ⟨[], []⟩ [[' ']] = ⟨[], []⟩ :=
  ⟨((claim_C5 [] [[], ["A".toList, [], "G".toList]]).1
      [("G".toList, [⟨"A".toList, none⟩])] (by decide)
      "G".toList [⟨"A".toList, none⟩] (by decide)).1,
   (claim_C5 [] [[], ["A".toList, [], "G".toList]]).2.2 ⟨[], []⟩ [[' ']] (Or.inr (by decide))⟩

theorem mainLoop_snd (fetch : List Char → List (List (List Char))) :
    ∀ (names : List (List Char)) (acc : List (List Char × PySection)) (cnt : Nat),
      (mainLoop fetch names acc cnt).2 = cnt + goodCount fetch names := by
  intro names
  induction names with
  | nil => intro acc cnt; simp [mainLoop, goodCount]
  | cons n rest ih =>
    intro acc cnt
    by_cases h1 : pyStrip n = []
    · have hb : badSheet fetch n := Or.inl h1
      simp [mainLoop, goodCount, h1, hb, ih]
    · by_cases h2 : fetch n = []
      · have hb : badSheet fetch n := Or.inr (Or.inl h2)
        simp [mainLoop, goodCount, h1, h2, hb, ih]
      · by_cases h3 : (process_sheet_data n (fetch n)).isEmptyB = true
        · have hb : badSheet fetch n := Or.inr (Or.inr h3)
          simp [mainLoop, goodCount, h1, h2, h3, hb, ih]
        · have hb : ¬ badSheet fetch n := by
            simp [badSheet, h1, h2, h3]
          simp [mainLoop, goodCount, h1, h2, h3, hb, ih]
          omega

theorem goodCount_zero (fetch : List Char → List (List (List Char)))
    (names : List (List Char)) :
    goodCount fetch names = 0 ↔ ∀ n ∈ names, badSheet fetch n := by
  induction names with
  | nil => simp [goodCount]
  | cons n rest ih =>
    by_cases h : badSheet fetch n
    · simp [goodCount, h, ih]
    · simp only [goodCount, if_neg h, List.forall_mem_cons, ih]
      constructor
      · intro hz
        omega
      · intro hc
        exact absurd hc.1 h

/-- Claim C2: the process exits non-zero with no output file when
discovery yields zero sheet names, or when every sheet is unusable
(blank name, empty fetch, or empty processed Section — that is, no sheet
produces a non-empty Section); otherwise the single output file is
written, once, with the result of processing every sheet. -/
theorem claim_C2 (names : List (List Char))
    (fetch : List Char → List (List (List Char))) (ts : List Char) :
    (names = [] → mainRun names fetch ts = none) ∧
    ((∀ n ∈ names, badSheet fetch n) → mainRun names fetch ts = none) ∧
    ((∃ n ∈ names, ¬ badSheet fetch n) →
      mainRun names fetch ts = some ⟨ts, (mainLoop fetch names [] 0).1⟩) := by
  refine ⟨?_, ?_, ?_⟩
  · intro h
    unfold mainRun
    rw [if_pos h]
  · intro h
    rcases eq_or_ne names [] with h0 | h0
    · unfold mainRun
      rw [if_pos h0]
    · have hc : goodCount fetch names = 0 := (goodCount_zero fetch names).mpr h
      unfold mainRun
      rw [if_neg h0, if_pos (by rw [mainLoop_snd]; omega)]
  · rintro ⟨n, hn, hbad⟩
    have h0 : names ≠ [] := by
      rintro rfl
      simp at hn
    have hc : goodCount fetch names ≠ 0 := by
      intro hz
      exact hbad ((goodCount_zero fetch names).mp hz n hn)
    unfold mainRun
    rw [if_neg h0, if_neg (by rw [mainLoop_snd]; omega)]

/-- Concrete fetch function for the C2 witness: one sheet with a header
row and one data row, all other sheets empty. -/
def fetchW2 : List Char → List (List (List Char)) :=
  fun n => if n = ['S'] then [["h".toList], ["A".toList]] else []

/-- Claim C2 witness: with one usable sheet among two, the output is
written with the full loop result. -/
theorem claim_C2_witness :
    mainRun [['S'], ['T']] fetchW2 ['t'] =
      some ⟨['t'], (mainLoop fetchW2 [['S'], ['T']] [] 0).1⟩ :=
  (claim_C2 [['S'], ['T']] fetchW2 ['t']).2.2 ⟨['S'], by decide, by decide⟩

theorem dictInsert_inv (P : List Char × PySection → Prop) :
    ∀ (m : List (List Char × PySection)) (k : List Char) (v : PySection),
      (∀ p ∈ m, P p) → P (k, v) → ∀ p ∈ dictInsert m k v, P p := by
  intro m
  induction m with
  | nil =>
    intro k v _ hkv p hp
    simp only [dictInsert, List.mem_singleton] at hp
    subst hp
    exact hkv
  | cons q rest ih =>
    intro k v hm hkv p hp
    obtain ⟨k', v'⟩ := q
    simp only [dictInsert] at hp
    split at hp
    next hkk =>
      rcases List.mem_cons.mp hp with h | h
      · subst h
        subst hkk
        exact hkv
      · exact hm p (List.mem_cons_of_mem _ h)
    next =>
      rcases List.mem_cons.mp hp with h | h
      · subst h
        exact hm (k', v') (List.mem_cons_self _ _)
      · exact ih k v (fun q hq => hm q (List.mem_cons_of_mem _ hq)) hkv p h

theorem mainLoop_fst_inv (fetch : List Char → List (List (List Char)))
    (P : List Char × PySection → Prop)
    (hP : ∀ n, (process_sheet_data n (fetch n)).isEmptyB = false →
      P (n, process_sheet_data n (fetch n))) :
    ∀ (names : List (List Char)) (acc : List (List Char × PySection)) (cnt : Nat),
      (∀ p ∈ acc, P p) → ∀ p ∈ (mainLoop fetch names acc cnt).1, P p := by
  intro names
  induction names with
  | nil =>
    intro acc cnt hacc p hp
    simp only [mainLoop] at hp
    exact hacc p hp
  | cons n rest ih =>
    intro acc cnt hacc p hp
    simp only [mainLoop] at hp
    split at hp
    · exact ih acc cnt hacc p hp
    · split at hp
      · exact ih acc cnt hacc p hp
      · split at hp
        · exact ih acc cnt hacc p hp
        next hgood =>
          refine ih _ _ ?_ p hp
          apply dictInsert_inv P acc n _ hacc
          apply hP
          cases hb : (process_sheet_data n (fetch n)).isEmptyB
          · rfl
          · exact absurd hb hgood

theorem process_fields (nm : List Char) (data : List (List (List Char))) :
    (∀ m, (process_sheet_data nm data).sub_headings = some m → m ≠ []) ∧
    (∀ l, (process_sheet_data nm data).direct_links = some l → l ≠ []) := by
  unfold process_sheet_data
  split
  · exact ⟨fun m hm => absurd hm (by simp), fun l hl => absurd hl (by simp)⟩
  · unfold finishSection
    constructor
    · intro m hm
      simp only at hm
      split at hm
      · exact absurd hm (by simp)
      next hne => exact (Option.some.inj hm) ▸ hne
    · intro l hl
      simp only at hl
      split at hl
      · exact absurd hl (by simp)
      next hne => exact (Option.some.inj hl) ▸ hne

/-- Claim C3: a sheet whose classified Section is empty never appears as
a key of the final headings mapping, and every Section that does appear
has its `sub_headings` and `direct_links` keys present only when the
corresponding collections are non-empty. -/
theorem claim_C3 (names : List (List Char))
    (fetch : List Char → List (List (List Char))) (ts : List Char)
    (d : Document) (h : mainRun names fetch ts = some d) :
    (∀ n, (process_sheet_data n (fetch n)).isEmptyB = true →
      ∀ s, (n, s) ∉ d.headings) ∧
    (∀ n s, (n, s) ∈ d.headings →
      (∀ m, s.sub_headings = some m → m ≠ []) ∧
      (∀ l, s.direct_links = some l → l ≠ [])) := by
  have hd : d.headings = (mainLoop fetch names [] 0).1 := by
    unfold mainRun at h
    split at h
    · exact absurd h (by simp)
    · split at h
      · exact absurd h (by simp)
      · cases Option.some.inj h
        rfl
  have hinv : ∀ p ∈ (mainLoop fetch names [] 0).1,
      p.2 = process_sheet_data p.1 (fetch p.1) ∧ p.2.isEmptyB = false := by
    apply mainLoop_fst_inv fetch
      (fun p => p.2 = process_sheet_data p.1 (fetch p.1) ∧ p.2.isEmptyB = false)
    · intro n hn
      exact ⟨rfl, hn⟩
    · intro p hp
      simp at hp
  constructor
  · intro n hemp s hmem
    rw [hd] at hmem
    obtain ⟨hs, hf⟩ := hinv (n, s) hmem
    rw [hs] at hf
    rw [hf] at hemp
    exact absurd hemp (by decide)
  · intro n s hmem
    rw [hd] at hmem
    obtain ⟨hs, _⟩ := hinv (n, s) hmem
    have hs2 : s = process_sheet_data n (fetch n) := hs
    rw [hs2]
    exact process_fields n (fetch n)

/-- Concrete fetch function for the C3 witness: sheet `S` has a header
and one data row, every other sheet fetches no rows. -/
def fetchW3 : List Char → List (List (List Char)) :=
  fun n => if n = ['S'] then [[], ["A".toList]] else []

/-- The document produced by `mainRun` on the C3 witness input. -/
def docW3 : Document :=
  ⟨['t'], [(['S'], ⟨none, some [⟨"A".toList, none⟩]⟩)]⟩

/-- Claim C3 witness: the sheet `T`, whose classified Section is empty,
does not appear in the final headings mapping. -/
theorem claim_C3_witness : (⟨['T'], ⟨none, none⟩⟩ : List Char × PySection) ∉ docW3.headings :=
  (claim_C3 [['S'], ['T']] fetchW3 ['t'] docW3 (by decide)).1 ['T'] (by decide) ⟨none, none⟩

/-- Claim C8: the CSV line parser implements RFC-4180-style quoting.
Inside a quoted region the two-character sequence of double quotes
contributes one literal double quote to the current field, and a comma
inside a quoted region is appended to the current field instead of
splitting it; two concrete lines illustrate both behaviours. -/
theorem claim_C8 :
    (∀ (rest cur : List Char) (row : List (List Char)),
      csvAux ('"' :: '"' :: rest) true cur row = csvAux rest true (cur ++ ['"']) row) ∧
    (∀ (rest cur : List Char) (row : List (List Char)),
      csvAux (',' :: rest) true cur row = csvAux rest true (cur ++ [',']) row) ∧
    parseCSVLine "a,\"b\"\"c\",d".toList = ["a".toList, "b\"c".toList, "d".toList] ∧
    parseCSVLine "\"x, y\",z".toList = ["x, y".toList, "z".toList] :=
  ⟨fun _ _ _ => rfl, fun _ _ _ => rfl, by decide, by decide⟩

theorem csvAux_fields :
    ∀ (s : List Char) (inq : Bool) (cur : List Char) (row : List (List Char)),
      (∀ f ∈ row, pyStrip f = f) → ∀ f ∈ csvAux s inq cur row, pyStrip f = f := by
  intro s inq cur row
  induction s, inq, cur, row using csvAux.induct with
  | case1 inq cur row =>
    intro hrow f hf
    rw [csvAux.eq_1] at hf
    rcases List.mem_append.mp hf with h | h
    · exact hrow f h
    · simp only [List.mem_singleton] at h
      subst h
      exact pyStrip_idem cur
  | case2 rest cur row ih =>
    intro hrow f hf
    rw [csvAux.eq_2] at hf
    exact ih hrow f hf
  | case3 rest cur row hne ih =>
    intro hrow f hf
    rw [csvAux.eq_3 _ _ _ hne] at hf
    exact ih hrow f hf
  | case4 rest cur row ih =>
    intro hrow f hf
    rw [csvAux.eq_4] at hf
    exact ih hrow f hf
  | case5 rest cur row ih =>
    intro hrow f hf
    rw [csvAux.eq_5] at hf
    refine ih ?_ f hf
    intro g hg
    rcases List.mem_append.mp hg with h | h
    · exact hrow g h
    · simp only [List.mem_singleton] at h
      subst h
      exact pyStrip_idem cur
  | case6 c rest inq cur row h1 h2 h3 h4 ih =>
    intro hrow f hf
    rw [csvAux.eq_6 _ _ _ _ _ h1 h2 h3 h4] at hf
    exact ih hrow f hf

/-- Claim C10: every field of every row produced by the CSV line parser
is whitespace-trimmed (a fixed point of strip), because each finished
field is stripped before being appended — including fields that were
enclosed in double quotes. -/
theorem claim_C10 (line f : List Char) (h : f ∈ parseCSVLine line) :
    pyStrip f = f :=
  csvAux_fields line false [] [] (by intro g hg; simp at hg) f h

/-- Claim C10 witness: the quoted field with surrounding spaces parses
to a trimmed field. -/
theorem claim_C10_witness : pyStrip "ab".toList = "ab".toList :=
  claim_C10 "\" ab \",c".toList "ab".toList (by decide)

